import Mathlib

/-!
Verification of the Greenwash-detector repository's RAG pipeline and agent
utilities.  Pure Python functions from `src/backend/rag_storage.py` and
`src/backend/agent.py` are embedded as Lean definitions; the behaviour that the
repository delegates to external libraries (the text splitter, the FAISS
vector index, the retrieval pipeline state machine) is modelled from the
specification, as marked in the doc comments.
-/

set_option maxHeartbeats 1000000

universe u

/-! ## Chunker -/

/-- Modelled from the spec: the chunker (delegated in the source to
`RecursiveCharacterTextSplitter(chunk_size=1000, chunk_overlap=200)` at
`rag_storage.py:74`).  A window of `size` characters slides across the text,
advancing by `size - overlap` each step, until the whole text is covered; the
final segment may be shorter.  Degenerate parameter choices (`size ≤ overlap`)
return the whole text as one segment. -/
def chunkTextAux (size overlap : Nat) : Nat → List α → List (List α)
  | 0, l => [l]
  | fuel + 1, l =>
      if l.length ≤ size ∨ size ≤ overlap then [l]
      else l.take size :: chunkTextAux size overlap fuel (l.drop (size - overlap))

/-- The chunk list of a text: the window slides until the text is covered.
The fuel `l.length` always suffices because every step drops at least one
character. -/
def chunkText (size overlap : Nat) (l : List α) : List (List α) :=
  chunkTextAux size overlap l.length l

/-- Concatenation of the non-overlapping portions of a chunk list: the first
segment contributes all of its text, every later segment contributes the part
not shared with its predecessor (everything past the first `overlap`
characters). -/
def reconstructChunks (overlap : Nat) (cs : List (List α)) : List α :=
  match cs with
  | [] => []
  | c :: rest => c ++ (rest.map (fun s => s.drop overlap)).flatten

/-! ## Vector index -/

/-- Squared Euclidean (L2) distance between two vectors, the metric of the
`faiss.IndexFlatL2` index created at `rag_storage.py:32`. -/
def sqdist (u v : List ℚ) : ℚ :=
  (List.zipWith (fun a b => (a - b) * (a - b)) u v).sum

/-- Modelled from the spec: ranking order used by the vector index's
nearest-neighbour query (delegated in the source to FAISS via
`vector_store.similarity_search`, `rag_storage.py:89`): ascending squared
Euclidean distance to the query vector, ties broken by insertion order.  The
entries carry their insertion index in the first component. -/
def rankLe {σ : Type u} (v : List ℚ) (p q : Nat × (List ℚ × σ)) : Prop :=
  sqdist v p.2.1 < sqdist v q.2.1 ∨
    (sqdist v p.2.1 = sqdist v q.2.1 ∧ p.1 ≤ q.1)

instance {σ : Type u} (v : List ℚ) : DecidableRel (rankLe (σ := σ) v) := by
  intro p q
  unfold rankLe
  infer_instance

/-- Modelled from the spec: the stored entries, tagged with their insertion
index, sorted by ascending distance to the query vector with ties broken by
insertion order. -/
def rankEntries {σ : Type u} (v : List ℚ) (store : List (List ℚ × σ)) :
    List (Nat × (List ℚ × σ)) :=
  List.insertionSort (rankLe v) store.enum

/-- Modelled from the spec: `query(vector, k)` of the vector index
(`vector_store.similarity_search` in the source): the segments of the `k`
nearest stored vectors, in ranked order. -/
def similarity_search {σ : Type u} (v : List ℚ) (k : Nat)
    (store : List (List ℚ × σ)) : List σ :=
  ((rankEntries v store).take k).map (fun p => p.2.2)

/-- Error raised by the vector index on a dimension mismatch, from the spec's
error model. -/
inductive IndexError where
  | dimensionMismatch
deriving DecidableEq

/-- A vector index: a dimension fixed at creation time plus the stored
(vector, segment) pairs in insertion order. -/
structure VectorIndex (σ : Type u) where
  dim : Nat
  entries : List (List ℚ × σ)

/-- Embedding of `create_vector_store` (`rag_storage.py:29-38`): the dimension
is determined once by embedding the probe string `"hello world"` and the index
starts empty. -/
def create_vector_store {σ : Type u} (embed : String → List ℚ) : VectorIndex σ :=
  { dim := (embed "hello world").length, entries := [] }

/-- Modelled from the spec: `insert(vector, segment)` appends the pair and
fails with a dimension-mismatch error when the vector's length differs from
the index's fixed dimension. -/
def insertVector {σ : Type u} (idx : VectorIndex σ) (v : List ℚ) (s : σ) :
    Except IndexError (VectorIndex σ) :=
  if v.length = idx.dim then
    .ok { idx with entries := idx.entries ++ [(v, s)] }
  else
    .error .dimensionMismatch

/-! ## Document store -/

/-- Error raised when `answer` runs before any successful `ingest`, from the
spec's error model. -/
inductive PipelineError where
  | emptyCorpusError
deriving DecidableEq

/-- External calls a pipeline operation can make. -/
inductive ExtCall where
  | embedCall (text : String)
  | llmCall (prompt : String)
deriving DecidableEq

/-- Modelled from the spec: the pipeline state machine of §4.4 — a pipeline
instance is uninitialized until a successful ingest makes it ready with an
indexed corpus of (vector, segment text) pairs. -/
inductive PipelineState where
  | uninitialized
  | ready (corpus : List (List ℚ × String))

/-- Modelled from the spec: the fixed instruction template used by answer
synthesis. -/
def ragTemplate (question context : String) : String :=
  "Answer the question using only the provided context.\nQuestion: " ++
    question ++ "\nContext: " ++ context

/-- Modelled from the spec: `answer(question)` — fails with the
empty-corpus error before any successful ingest, making no external call;
otherwise embeds the question, retrieves the top-k segments, joins them with a
blank line and calls the model.  The second component records the external
calls made. -/
def pipelineAnswer (embed : String → List ℚ) (llm : String → String) (k : Nat)
    (st : PipelineState) (question : String) :
    Except PipelineError String × List ExtCall :=
  match st with
  | .uninitialized => (.error .emptyCorpusError, [])
  | .ready corpus =>
      let qv := embed question
      let hits := similarity_search qv k corpus
      let context := String.intercalate "\n\n" hits
      let prompt := ragTemplate question context
      (.ok (llm prompt), [.embedCall question, .llmCall prompt])

/-! ## Agent utilities (`src/backend/agent.py`) -/

/-- Python's Unicode whitespace predicate (CPython's `Py_UNICODE_ISSPACE`),
the character class both of `\s` in a str-mode regular expression and of
no-argument `str.strip()`: the ASCII whitespace `\t\n\v\f\r` and space, the
separators U+001C through U+001F, next line U+0085, no-break space U+00A0,
ogham space U+1680, the typographic spaces U+2000 through U+200A, the line and
paragraph separators U+2028 and U+2029, narrow no-break space U+202F, medium
mathematical space U+205F and ideographic space U+3000. -/
def pyWsB (c : Char) : Bool :=
  let n := c.toNat
  (0x09 ≤ n && n ≤ 0x0d) || (0x1c ≤ n && n ≤ 0x20) || n = 0x85 || n = 0xa0 ||
    n = 0x1680 || (0x2000 ≤ n && n ≤ 0x200a) || n = 0x2028 || n = 0x2029 ||
    n = 0x202f || n = 0x205f || n = 0x3000

/-- Python's `str.strip()`: remove leading and trailing Unicode
whitespace. -/
def pyStrip (l : List Char) : List Char :=
  ((l.dropWhile pyWsB).reverse.dropWhile pyWsB).reverse

/-- Scan for the first occurrence of `"</think>"` and return everything after
it, or `none` when it does not occur. -/
def dropThroughClose : List Char → Option (List Char)
  | [] => none
  | c :: cs =>
      if ("</think>".toList).isPrefixOf (c :: cs) then some ((c :: cs).drop 8)
      else dropThroughClose cs

/-- Fuelled scan implementing `re.sub(r"<think>.*?</think>", "", raw,
flags=re.DOTALL)`: at each position, a `<think>` opener followed (lazily) by a
`</think>` closer is removed, otherwise the character is kept. -/
def subThinkFuel : Nat → List Char → List Char
  | 0, s => s
  | _ + 1, [] => []
  | n + 1, c :: cs =>
      if ("<think>".toList).isPrefixOf (c :: cs) then
        match dropThroughClose ((c :: cs).drop 7) with
        | some rest => subThinkFuel n rest
        | none => c :: subThinkFuel n cs
      else c :: subThinkFuel n cs

/-- Removal of `<think>...</think>` blocks, step 1 of `clean_groq_output`. -/
def removeThink (s : List Char) : List Char :=
  subThinkFuel s.length s

/-- Fuelled left-to-right replacement of every non-overlapping occurrence of
`pat` by `rep`, as Python's `str.replace`. -/
def replaceAllFuel (pat rep : List Char) : Nat → List Char → List Char
  | 0, s => s
  | _ + 1, [] => []
  | n + 1, c :: cs =>
      if pat ≠ [] ∧ pat.isPrefixOf (c :: cs) then
        rep ++ replaceAllFuel pat rep n ((c :: cs).drop pat.length)
      else c :: replaceAllFuel pat rep n cs

/-- Python's `str.replace(pat, rep)` on character lists. -/
def replaceAll (pat rep s : List Char) : List Char :=
  replaceAllFuel pat rep s.length s

/-- The double-quote character. -/
def quoteChar : Char := Char.ofNat 34

/-- The apostrophe character. -/
def aposChar : Char := Char.ofNat 39

/-- Embedding of `clean_groq_output` (`agent.py:12-31`): drop
`<think>...</think>` blocks, un-escape the literal sequences `\n`, `\'`,
`\"`, `\\` in that order, and strip surrounding whitespace. -/
def clean_groq_output (raw : List Char) : List Char :=
  pyStrip
    (replaceAll ('\\' :: '\\' :: []) ('\\' :: [])
      (replaceAll ('\\' :: quoteChar :: []) (quoteChar :: [])
        (replaceAll ('\\' :: aposChar :: []) (aposChar :: [])
          (replaceAll ('\\' :: 'n' :: []) ('\n' :: []) (removeThink raw)))))

/-- The exact string `json.dumps` produces for the zero-evidence fallback of
`analyze_greenwashing` (`agent.py:117-123`). -/
def fallbackGreenwashJson : List Char :=
  ("\x7b\"is_greenwashing\": false, \"explanation\": \"No company information available; cannot confirm or deny greenwashing.\"\x7d").toList

/-- Lower-case hexadecimal digit for a value below 16, as used by
`json.dumps` escapes. -/
def toHexDigit (n : Nat) : Char :=
  if n < 10 then Char.ofNat (48 + n) else Char.ofNat (87 + n)

/-- A `\uXXXX` escape for a code unit below `0x10000`. -/
def uEscape (n : Nat) : List Char :=
  '\\' :: 'u' :: toHexDigit (n / 4096 % 16) :: toHexDigit (n / 256 % 16) ::
    toHexDigit (n / 16 % 16) :: toHexDigit (n % 16) :: []

/-- JSON string escaping of a single character, as `json.dumps` with its
default `ensure_ascii=True`: backslash, quote and the five short control
escapes; every other character outside printable ASCII becomes `\uXXXX`, as a
surrogate pair beyond the basic multilingual plane. -/
def jsonEscapeChar (c : Char) : List Char :=
  if c = '\\' then '\\' :: '\\' :: []
  else if c = quoteChar then '\\' :: quoteChar :: []
  else if c = '\n' then '\\' :: 'n' :: []
  else if c = '\t' then '\\' :: 't' :: []
  else if c = '\r' then '\\' :: 'r' :: []
  else if c.toNat = 8 then '\\' :: 'b' :: []
  else if c.toNat = 12 then '\\' :: 'f' :: []
  else if 0x20 ≤ c.toNat && c.toNat ≤ 0x7e then [c]
  else if c.toNat < 0x10000 then uEscape c.toNat
  else
    uEscape (0xd800 + (c.toNat - 0x10000) / 0x400) ++
      uEscape (0xdc00 + (c.toNat - 0x10000) % 0x400)

/-- JSON string literal for a character list, as `json.dumps`. -/
def jsonDumpsStr (s : List Char) : List Char :=
  quoteChar :: (s.map jsonEscapeChar).flatten ++ [quoteChar]

/-- `json.dumps(xs, indent=2)` for a list of strings. -/
def jsonDumpsListIndent (xs : List (List Char)) : List Char :=
  match xs with
  | [] => '[' :: ']' :: []
  | _ =>
      ('[' :: '\n' :: []) ++
        (List.intercalate (',' :: '\n' :: [])
          (xs.map (fun s => ' ' :: ' ' :: jsonDumpsStr s))) ++
        ('\n' :: ']' :: [])

/-- The prompt `analyze_greenwashing` builds for the model in the
non-empty-evidence branch (`agent.py:125-135`). -/
def greenwashPrompt (stmt : List Char) (evidence : List (List Char)) : List Char :=
  "\nYou are a sustainability analyst.\nUser claim: \"".toList ++ stmt ++
    "\"\nCompany info (RAG results): ".toList ++
    jsonDumpsListIndent evidence ++
    "\n\nRespond with valid JSON exactly in this form:\n\x7b \n  \"is_greenwashing\": <true|false>,\n  \"explanation\": \"<quote relevant passages and justify your decision>\"\n\x7d\n".toList

/-- Embedding of `analyze_greenwashing` (`agent.py:97-144`).  The external
model completion is the parameter `llm`; the second component of the result
counts the completion calls made. -/
def analyze_greenwashing (llm : List Char → Except (List Char) (List Char))
    (stmt : List Char) (evidence laws : List (List Char)) :
    Except (List Char) (List Char) × Nat :=
  if evidence = [] then (.ok fallbackGreenwashJson, 0)
  else ((llm (greenwashPrompt stmt evidence)).map clean_groq_output, 1)

/-! ## Six-section response parsing (`parse_agent_output`) -/

/-- Elements of the regular expression used by `parse_agent_output`
(`agent.py:47-54`): a literal, a greedy whitespace star `\s*`, a lazy capture
`(.*?)` and the final greedy capture `(.*)` (both under `re.DOTALL`). -/
inductive RElem where
  | lit (s : List Char)
  | wsStar
  | lazyCap
  | greedyCap
deriving DecidableEq

/-- The pattern of `parse_agent_output`, element by element:
`1\.\s*Retrieved Evidence\s*(.*?)\s*2\.\s*Conclusion\s*(.*?)\s*` ... up to
`6\.\s*Greenwashing Category\s*(.*)`. -/
def thePattern : List RElem :=
  [ .lit "1.".toList, .wsStar, .lit "Retrieved Evidence".toList, .wsStar,
    .lazyCap, .wsStar,
    .lit "2.".toList, .wsStar, .lit "Conclusion".toList, .wsStar,
    .lazyCap, .wsStar,
    .lit "3.".toList, .wsStar, .lit "Justification".toList, .wsStar,
    .lazyCap, .wsStar,
    .lit "4.".toList, .wsStar, .lit "Rewritten Statement".toList, .wsStar,
    .lazyCap, .wsStar,
    .lit "5.".toList, .wsStar, .lit "Suggestions for Improvement".toList, .wsStar,
    .lazyCap, .wsStar,
    .lit "6.".toList, .wsStar, .lit "Greenwashing Category".toList, .wsStar,
    .greedyCap ]

/-- Backtracking matcher for the pattern elements, with Python's preference
order: a greedy star tries the longest whitespace run first, a lazy capture
tries the shortest text first, the final greedy capture tries the longest text
first, and earlier elements backtrack before later ones.  Returns the captured
groups of the preferred match of a prefix of `inp`, or `none`. -/
def reMatch : List RElem → List Char → Option (List (List Char))
  | [], _ => some []
  | .lit s :: rest, inp =>
      if s.isPrefixOf inp then reMatch rest (inp.drop s.length) else none
  | .wsStar :: rest, inp =>
      List.findSome? (fun j => reMatch rest (inp.drop j))
        ((List.range ((inp.takeWhile pyWsB).length + 1)).reverse)
  | .lazyCap :: rest, inp =>
      List.findSome?
        (fun j => (reMatch rest (inp.drop j)).map (fun gs => inp.take j :: gs))
        (List.range (inp.length + 1))
  | .greedyCap :: rest, inp =>
      List.findSome?
        (fun j => (reMatch rest (inp.drop j)).map (fun gs => inp.take j :: gs))
        ((List.range (inp.length + 1)).reverse)

/-- `re.search`: try each start position from the left and return the first
match. -/
def reSearch (pat : List RElem) (s : List Char) : Option (List (List Char)) :=
  List.findSome? (fun i => reMatch pat (s.drop i)) (List.range (s.length + 1))

/-- The six-field record `parse_agent_output` builds. -/
structure AgentOutput where
  retrieved_evidence : List Char
  conclusion : List Char
  justification : List Char
  rewritten_statement : List Char
  suggestions_for_improvement : List Char
  greenwashing_category : List Char
deriving DecidableEq

/-- Record built from the captured groups, each stripped, as the dictionary
literal of `agent.py:58-65`. -/
def buildAgentOutput (gs : List (List Char)) : AgentOutput :=
  { retrieved_evidence := pyStrip (gs.getD 0 [])
    conclusion := pyStrip (gs.getD 1 [])
    justification := pyStrip (gs.getD 2 [])
    rewritten_statement := pyStrip (gs.getD 3 [])
    suggestions_for_improvement := pyStrip (gs.getD 4 [])
    greenwashing_category := pyStrip (gs.getD 5 []) }

/-- The `ValueError` message of `parse_agent_output`. -/
def parseErrMsg : List Char :=
  "Response did not match expected format".toList

/-- Embedding of `parse_agent_output` (`agent.py:37-65`): search the input for
the six-section pattern; on a match return the six stripped groups, otherwise
fail with the `ValueError` message. -/
def parse_agent_output (input : List Char) : Except (List Char) AgentOutput :=
  match reSearch thePattern input with
  | none => .error parseErrMsg
  | some gs => .ok (buildAgentOutput gs)

/-- Declarative match relation for the pattern elements: `RMatches es inp gs`
holds when `es` can match some prefix of `inp` capturing the groups `gs`. -/
inductive RMatches : List RElem → List Char → List (List Char) → Prop where
  | nil (inp : List Char) : RMatches [] inp []
  | lit (s : List Char) (rest : List RElem) (inp : List Char)
      (gs : List (List Char)) :
      RMatches rest inp gs → RMatches (.lit s :: rest) (s ++ inp) gs
  | ws (w : List Char) (rest : List RElem) (inp : List Char)
      (gs : List (List Char)) :
      (∀ c ∈ w, pyWsB c = true) →
      RMatches rest inp gs → RMatches (.wsStar :: rest) (w ++ inp) gs
  | lazy (t : List Char) (rest : List RElem) (inp : List Char)
      (gs : List (List Char)) :
      RMatches rest inp gs → RMatches (.lazyCap :: rest) (t ++ inp) (t :: gs)
  | greedy (t : List Char) (rest : List RElem) (inp : List Char)
      (gs : List (List Char)) :
      RMatches rest inp gs → RMatches (.greedyCap :: rest) (t ++ inp) (t :: gs)

/-- The input contains a match of the six-section pattern at some start
position. -/
def ContainsSixSections (input : List Char) : Prop :=
  ∃ i gs, RMatches thePattern (input.drop i) gs

/-- The input contains the six numbered section headings, in order: each
heading is its number, a dot, optional whitespace, and its title, and
arbitrary text may separate and surround the headings. -/
def HeadingsInOrder (input : List Char) : Prop :=
  ∃ g0 w1 s1 w2 s2 w3 s3 w4 s4 w5 s5 w6 s6 : List Char,
    (∀ c ∈ w1, pyWsB c = true) ∧ (∀ c ∈ w2, pyWsB c = true) ∧
    (∀ c ∈ w3, pyWsB c = true) ∧ (∀ c ∈ w4, pyWsB c = true) ∧
    (∀ c ∈ w5, pyWsB c = true) ∧ (∀ c ∈ w6, pyWsB c = true) ∧
    input =
      g0 ++ "1.".toList ++ w1 ++ "Retrieved Evidence".toList ++ s1 ++
      "2.".toList ++ w2 ++ "Conclusion".toList ++ s2 ++
      "3.".toList ++ w3 ++ "Justification".toList ++ s3 ++
      "4.".toList ++ w4 ++ "Rewritten Statement".toList ++ s4 ++
      "5.".toList ++ w5 ++ "Suggestions for Improvement".toList ++ s5 ++
      "6.".toList ++ w6 ++ "Greenwashing Category".toList ++ s6

/-- Number of capturing groups in a pattern. -/
def countCaps (es : List RElem) : Nat :=
  match es with
  | [] => 0
  | .lazyCap :: rest => countCaps rest + 1
  | .greedyCap :: rest => countCaps rest + 1
  | _ :: rest => countCaps rest

/-- Ranking order by true Euclidean distance (square root of `sqdist`), the
comparison point of the spec's remark that squared distance is monotonic with
Euclidean distance. -/
def rankLeEuclid {σ : Type u} (v : List ℚ) (p q : Nat × (List ℚ × σ)) : Prop :=
  Real.sqrt ((sqdist v p.2.1 : ℚ) : ℝ) < Real.sqrt ((sqdist v q.2.1 : ℚ) : ℝ) ∨
    (Real.sqrt ((sqdist v p.2.1 : ℚ) : ℝ) = Real.sqrt ((sqdist v q.2.1 : ℚ) : ℝ) ∧
      p.1 ≤ q.1)

/-! ## Chunker lemmas -/

theorem chunkTextAux_congr (size overlap : Nat) :
    ∀ (f1 f2 : Nat) (l : List α), l.length ≤ f1 → l.length ≤ f2 →
      chunkTextAux size overlap f1 l = chunkTextAux size overlap f2 l := by
  intro f1
  induction f1 with
  | zero =>
    intro f2 l h1 h2
    have hnil : l = [] := List.length_eq_zero.mp (Nat.le_zero.mp h1)
    subst hnil
    cases f2 with
    | zero => rfl
    | succ m => simp [chunkTextAux]
  | succ n ih =>
    intro f2 l h1 h2
    cases f2 with
    | zero =>
      have hnil : l = [] := List.length_eq_zero.mp (Nat.le_zero.mp h2)
      subst hnil
      simp [chunkTextAux]
    | succ m =>
      simp only [chunkTextAux]
      by_cases hg : l.length ≤ size ∨ size ≤ overlap
      · rw [if_pos hg, if_pos hg]
      · rw [if_neg hg, if_neg hg]
        push_neg at hg
        have hd : (l.drop (size - overlap)).length = l.length - (size - overlap) := by
          simp
        exact congrArg _ (ih m (l.drop (size - overlap)) (by omega) (by omega))

theorem chunkText_of_guard {size overlap : Nat} {l : List α}
    (h : l.length ≤ size ∨ size ≤ overlap) : chunkText size overlap l = [l] := by
  unfold chunkText
  cases hn : l.length with
  | zero => rfl
  | succ m =>
    rw [chunkTextAux, if_pos]
    omega

theorem chunkText_of_le {size overlap : Nat} {l : List α}
    (h : l.length ≤ size) : chunkText size overlap l = [l] :=
  chunkText_of_guard (Or.inl h)

theorem chunkText_of_lt {size overlap : Nat} {l : List α}
    (h1 : size < l.length) (h2 : overlap < size) :
    chunkText size overlap l =
      l.take size :: chunkText size overlap (l.drop (size - overlap)) := by
  unfold chunkText
  cases hn : l.length with
  | zero => omega
  | succ m =>
    rw [chunkTextAux, if_neg (by omega)]
    have hd : (l.drop (size - overlap)).length = l.length - (size - overlap) := by
      simp
    exact congrArg _ (chunkTextAux_congr size overlap m
      (l.drop (size - overlap)).length (l.drop (size - overlap))
      (by omega) (by omega))

theorem chunkText_ne_nil (size overlap : Nat) (l : List α) :
    chunkText size overlap l ≠ [] := by
  unfold chunkText
  cases l.length with
  | zero => simp [chunkTextAux]
  | succ m =>
    simp only [chunkTextAux]
    split
    · simp
    · simp

theorem chunkText_length_pos (size overlap : Nat) (l : List α) :
    0 < (chunkText size overlap l).length :=
  List.length_pos.mpr (chunkText_ne_nil size overlap l)

theorem chunkText_getD (size overlap : Nat) (hso : overlap < size) :
    ∀ (n : Nat) (l : List α), l.length = n → ∀ i,
      i < (chunkText size overlap l).length →
      (chunkText size overlap l).getD i [] =
        (l.drop (i * (size - overlap))).take size := by
  intro n
  induction n using Nat.strong_induction_on with
  | _ n ih =>
    intro l hl i hi
    by_cases hle : l.length ≤ size
    · rw [chunkText_of_le hle] at hi ⊢
      simp only [List.length_singleton] at hi
      interval_cases i
      simp [List.take_of_length_le hle]
    · rw [chunkText_of_lt (by omega) hso] at hi ⊢
      cases i with
      | zero => simp
      | succ j =>
        simp only [List.getD_cons_succ, List.length_cons,
          Nat.succ_lt_succ_iff] at hi ⊢
        have hlen : (l.drop (size - overlap)).length = n - (size - overlap) := by
          simp [hl]
        have hstep := ih (n - (size - overlap)) (by omega)
          (l.drop (size - overlap)) hlen j hi
        rw [hstep, List.drop_drop]
        congr 2
        ring

theorem chunkText_full_length (size overlap : Nat) (hso : overlap < size) :
    ∀ (n : Nat) (l : List α), l.length = n → ∀ i,
      i + 1 < (chunkText size overlap l).length →
      ((chunkText size overlap l).getD i []).length = size := by
  intro n
  induction n using Nat.strong_induction_on with
  | _ n ih =>
    intro l hl i hi
    by_cases hle : l.length ≤ size
    · rw [chunkText_of_le hle] at hi
      simp only [List.length_singleton] at hi
      omega
    · rw [chunkText_of_lt (by omega) hso] at hi ⊢
      cases i with
      | zero =>
        simp only [List.getD_cons_zero, List.length_take]
        omega
      | succ j =>
        simp only [List.getD_cons_succ, List.length_cons,
          Nat.succ_lt_succ_iff] at hi ⊢
        have hlen : (l.drop (size - overlap)).length = n - (size - overlap) := by
          simp [hl]
        exact ih (n - (size - overlap)) (by omega)
          (l.drop (size - overlap)) hlen j hi

theorem chunkText_covers (size overlap : Nat) (hso : overlap < size) :
    ∀ (n : Nat) (l : List α), l.length = n →
      l.length ≤
        ((chunkText size overlap l).length - 1) * (size - overlap) + size := by
  intro n
  induction n using Nat.strong_induction_on with
  | _ n ih =>
    intro l hl
    by_cases hle : l.length ≤ size
    · rw [chunkText_of_le hle]
      simpa using hle
    · rw [chunkText_of_lt (by omega) hso]
      have hlen : (l.drop (size - overlap)).length = n - (size - overlap) := by
        simp [hl]
      have hcov := ih (n - (size - overlap)) (by omega)
        (l.drop (size - overlap)) hlen
      have hpos := chunkText_length_pos size overlap (l.drop (size - overlap))
      rw [hlen] at hcov
      simp only [List.length_cons]
      set m := (chunkText size overlap (l.drop (size - overlap))).length with hm
      have hmul : (m + 1 - 1) * (size - overlap) =
          (m - 1) * (size - overlap) + (size - overlap) := by
        have hsucc : m + 1 - 1 = (m - 1) + 1 := by omega
        rw [hsucc, Nat.succ_mul]
      rw [hmul]
      omega

/-- C2: for every document text and parameters with `overlap < size`, the
chunker slides a window of `size` characters, advancing by `size - overlap`
each step: the `i`-th segment is the window at offset `i * (size - overlap)`,
every non-final segment has length exactly `size`, the final window reaches
the end of the text, and a text shorter than `size` yields exactly one segment
equal to the whole text. -/
theorem chunker_sliding_window (size overlap : Nat) (l : List α)
    (hso : overlap < size) :
    (∀ i, i < (chunkText size overlap l).length →
      (chunkText size overlap l).getD i [] =
        (l.drop (i * (size - overlap))).take size) ∧
    (∀ i, i + 1 < (chunkText size overlap l).length →
      ((chunkText size overlap l).getD i []).length = size) ∧
    l.length ≤
      ((chunkText size overlap l).length - 1) * (size - overlap) + size ∧
    (l.length < size → chunkText size overlap l = [l]) :=
  ⟨fun i hi => chunkText_getD size overlap hso l.length l rfl i hi,
   fun i hi => chunkText_full_length size overlap hso l.length l rfl i hi,
   chunkText_covers size overlap hso l.length l rfl,
   fun h => chunkText_of_le (Nat.le_of_lt h)⟩

/-- Witness for `chunker_sliding_window` at a concrete text and parameters. -/
theorem chunker_sliding_window_witness :
    2 < 5 ∧
      (chunkText 5 2 "abcdefgh".toList).getD 1 [] =
        (("abcdefgh".toList).drop (1 * (5 - 2))).take 5 :=
  ⟨by decide,
   (chunker_sliding_window 5 2 "abcdefgh".toList (by decide)).1 1 (by decide)⟩

theorem flatten_map_drop_chunkText (size overlap : Nat) :
    ∀ (n : Nat) (l : List α), l.length = n →
      ((chunkText size overlap l).map (fun s => s.drop overlap)).flatten =
        l.drop overlap := by
  intro n
  induction n using Nat.strong_induction_on with
  | _ n ih =>
    intro l hl
    by_cases hg : l.length ≤ size ∨ size ≤ overlap
    · rw [chunkText_of_guard hg]
      simp
    · push_neg at hg
      rw [chunkText_of_lt (by omega) (by omega)]
      have hlen : (l.drop (size - overlap)).length = n - (size - overlap) := by
        simp [hl]
      have hih := ih (n - (size - overlap)) (by omega)
        (l.drop (size - overlap)) hlen
      simp only [List.map_cons, List.flatten_cons, hih]
      rw [List.drop_drop, List.drop_take]
      have hsum : size - overlap + overlap = size := by omega
      rw [hsum]
      have hdd : List.drop size l =
          List.drop (size - overlap) (List.drop overlap l) := by
        rw [List.drop_drop]
        congr 1
        omega
      rw [hdd]
      exact List.take_append_drop _ _

/-- C6: concatenating, in order, each produced segment's non-overlapping
portion (the part not shared with the preceding segment) reconstructs the
original text exactly. -/
theorem chunk_reconstruction (size overlap : Nat) (l : List α)
    (hso : overlap < size) :
    reconstructChunks overlap (chunkText size overlap l) = l := by
  by_cases hle : l.length ≤ size
  · rw [chunkText_of_le hle]
    simp [reconstructChunks]
  · rw [chunkText_of_lt (by omega) hso]
    simp only [reconstructChunks]
    rw [flatten_map_drop_chunkText size overlap
      (l.drop (size - overlap)).length (l.drop (size - overlap)) rfl]
    rw [List.drop_drop]
    have hsum : size - overlap + overlap = size := by omega
    rw [hsum]
    exact List.take_append_drop size l

/-- Witness for `chunk_reconstruction` at a concrete text and parameters. -/
theorem chunk_reconstruction_witness :
    2 < 5 ∧
      reconstructChunks 2 (chunkText 5 2 "abcdefghijk".toList) =
        "abcdefghijk".toList :=
  ⟨by decide, chunk_reconstruction 5 2 "abcdefghijk".toList (by decide)⟩

theorem chunkText_len2500 (l : List α) (hl : l.length = 2500) :
    chunkText 1000 200 l =
      [l.take 1000, (l.drop 800).take 1000, (l.drop 1600).take 1000] := by
  have hd1 : (l.drop 800).length = 1700 := by simp [hl]
  have hd2 : (l.drop 1600).length = 900 := by simp [hl]
  have e1 : chunkText 1000 200 l =
      l.take 1000 :: chunkText 1000 200 (l.drop 800) := by
    have h := @chunkText_of_lt _ 1000 200 l (by omega) (by omega)
    simpa using h
  have e2 : chunkText 1000 200 (l.drop 800) =
      (l.drop 800).take 1000 :: chunkText 1000 200 (l.drop 1600) := by
    have h := @chunkText_of_lt _ 1000 200 (l.drop 800) (by omega) (by omega)
    simpa [List.drop_drop] using h
  have e3 : chunkText 1000 200 (l.drop 1600) = [l.drop 1600] :=
    chunkText_of_le (by omega)
  rw [e1, e2, e3,
    List.take_of_length_le (show (l.drop 1600).length ≤ 1000 by omega)]

/-- C5 counterexample: chunking a 2,500-character document with
`max_chunk_size = 1000` and `overlap = 200` does not produce 4 segments — it
produces 3. -/
theorem chunk_scenario_counterexample :
    (chunkText 1000 200 (List.replicate 2500 true)).length = 3 ∧
      ¬ (chunkText 1000 200 (List.replicate 2500 true)).length = 4 := by
  have h3 : (chunkText 1000 200 (List.replicate 2500 true)).length = 3 := by
    rw [chunkText_len2500 (List.replicate 2500 true)
      (List.length_replicate 2500 true)]
    rfl
  exact ⟨h3, by omega⟩

/-- C5 (amended): chunking a 2,500-character document with
`max_chunk_size = 1000` and `overlap = 200` produces exactly 3 segments, at
character ranges [0:1000], [800:1800] and [1600:2500], and every adjacent pair
of segments overlaps by exactly 200 characters (so no overlap shorter than 200
occurs anywhere, in particular none before the final boundary). -/
theorem chunk_scenario_2500 (l : List α) (hl : l.length = 2500) :
    chunkText 1000 200 l =
      [l.take 1000, (l.drop 800).take 1000, (l.drop 1600).take 1000] ∧
    (chunkText 1000 200 l).length = 3 ∧
    (l.take 1000).drop 800 = ((l.drop 800).take 1000).take 200 ∧
    ((l.drop 800).take 1000).drop 800 = ((l.drop 1600).take 1000).take 200 := by
  refine ⟨chunkText_len2500 l hl, ?_, ?_, ?_⟩
  · rw [chunkText_len2500 l hl]
    rfl
  · rw [List.drop_take, List.take_take]
    norm_num
  · rw [List.drop_take, List.take_take, List.drop_drop]
    norm_num

/-- Witness for `chunk_scenario_2500` at a concrete 2,500-character text. -/
theorem chunk_scenario_2500_witness :
    (List.replicate 2500 true).length = 2500 ∧
      (chunkText 1000 200 (List.replicate 2500 true)).length = 3 :=
  ⟨List.length_replicate 2500 true,
   (chunk_scenario_2500 (List.replicate 2500 true)
     (List.length_replicate 2500 true)).2.1⟩

/-! ## Document store dispatch -/

/-- C4: on a pipeline instance with no successful ingest, `answer` fails with
the empty-corpus error and makes no external call (neither embedding nor
completion). -/
theorem answer_before_ingest (embed : String → List ℚ) (llm : String → String)
    (k : Nat) (question : String) :
    pipelineAnswer embed llm k PipelineState.uninitialized question =
      (.error .emptyCorpusError, []) := rfl

/-- Witness for `answer_before_ingest` at concrete collaborators. -/
theorem answer_before_ingest_witness :
    pipelineAnswer (fun _ => []) (fun _ => "") 4 PipelineState.uninitialized
      "What is the main topic?" = (.error .emptyCorpusError, []) :=
  answer_before_ingest (fun _ => []) (fun _ => "") 4 "What is the main topic?"

/-! ## Vector index dimension invariant -/

/-- C7: the index's dimension is fixed at creation by embedding the probe
string; insertion preserves the all-vectors-have-the-index-dimension
invariant and leaves the dimension unchanged, and fails with the
dimension-mismatch error exactly when the inserted vector's length differs
from the index's dimension. -/
theorem vector_index_dimension_invariant {σ : Type u}
    (embed : String → List ℚ) (idx : VectorIndex σ) (v : List ℚ) (s : σ) :
    ((create_vector_store (σ := σ) embed).dim =
        (embed "hello world").length ∧
      (create_vector_store (σ := σ) embed).entries = []) ∧
    ((∀ p ∈ idx.entries, p.1.length = idx.dim) →
      ∀ idx2, insertVector idx v s = .ok idx2 →
        idx2.dim = idx.dim ∧ ∀ p ∈ idx2.entries, p.1.length = idx2.dim) ∧
    (insertVector idx v s = .error .dimensionMismatch ↔
      v.length ≠ idx.dim) := by
  refine ⟨⟨rfl, rfl⟩, fun hinv idx2 hok => ?_, ?_⟩
  · unfold insertVector at hok
    by_cases hv : v.length = idx.dim
    · rw [if_pos hv] at hok
      cases hok
      refine ⟨rfl, fun p hp => ?_⟩
      rcases List.mem_append.mp hp with hold | hnew
      · exact hinv p hold
      · rcases List.mem_singleton.mp hnew with rfl
        exact hv
    · rw [if_neg hv] at hok
      cases hok
  · unfold insertVector
    by_cases hv : v.length = idx.dim
    · rw [if_pos hv]
      simp [hv]
    · rw [if_neg hv]
      simp [hv]

/-- Witness for `vector_index_dimension_invariant`: inserting a vector of the
wrong length into a 2-dimensional index fails. -/
theorem vector_index_dimension_invariant_witness :
    insertVector (VectorIndex.mk 2 ([] : List (List ℚ × Nat))) [(1 : ℚ)] 0 =
      .error .dimensionMismatch :=
  (vector_index_dimension_invariant (fun _ => [])
    (VectorIndex.mk 2 ([] : List (List ℚ × Nat))) [(1 : ℚ)] 0).2.2.mpr
    (by decide)

/-! ## Squared versus true Euclidean distance -/

theorem sqdist_nonneg (v : List ℚ) : ∀ u : List ℚ, 0 ≤ sqdist v u := by
  unfold sqdist
  induction v with
  | nil => intro u; simp
  | cons a v ih =>
    intro u
    cases u with
    | nil => simp
    | cons b u =>
      simp only [List.zipWith_cons_cons, List.sum_cons]
      exact add_nonneg (mul_self_nonneg (a - b)) (ih u)

theorem rankLe_iff_euclid {σ : Type u} (v : List ℚ)
    (p q : Nat × (List ℚ × σ)) : rankLe v p q ↔ rankLeEuclid v p q := by
  unfold rankLe rankLeEuclid
  have hp : (0 : ℝ) ≤ ((sqdist v p.2.1 : ℚ) : ℝ) := by
    exact_mod_cast sqdist_nonneg v p.2.1
  have hq : (0 : ℝ) ≤ ((sqdist v q.2.1 : ℚ) : ℝ) := by
    exact_mod_cast sqdist_nonneg v q.2.1
  constructor
  · rintro (hlt | ⟨heq, hle⟩)
    · exact Or.inl ((Real.sqrt_lt_sqrt_iff hp).mpr (by exact_mod_cast hlt))
    · exact Or.inr ⟨by rw [heq], hle⟩
  · rintro (hlt | ⟨heq, hle⟩)
    · have : ((sqdist v p.2.1 : ℚ) : ℝ) < ((sqdist v q.2.1 : ℚ) : ℝ) :=
        (Real.sqrt_lt_sqrt_iff hp).mp hlt
      exact Or.inl (by exact_mod_cast this)
    · have : ((sqdist v p.2.1 : ℚ) : ℝ) = ((sqdist v q.2.1 : ℚ) : ℝ) :=
        (Real.sqrt_inj hp hq).mp heq
      exact Or.inr ⟨by exact_mod_cast this, hle⟩

theorem orderedInsert_congr {α : Type u} (r s : α → α → Prop)
    [DecidableRel r] [DecidableRel s] (h : ∀ a b, r a b ↔ s a b) (a : α) :
    ∀ l : List α, List.orderedInsert r a l = List.orderedInsert s a l := by
  intro l
  induction l with
  | nil => rfl
  | cons b l ih =>
    simp only [List.orderedInsert]
    by_cases hr : r a b
    · rw [if_pos hr, if_pos ((h a b).mp hr)]
    · rw [if_neg hr, if_neg (fun hs => hr ((h a b).mpr hs)), ih]

theorem insertionSort_congr {α : Type u} (r s : α → α → Prop)
    [DecidableRel r] [DecidableRel s] (h : ∀ a b, r a b ↔ s a b) :
    ∀ l : List α, List.insertionSort r l = List.insertionSort s l := by
  intro l
  induction l with
  | nil => rfl
  | cons a l ih =>
    simp only [List.insertionSort]
    rw [ih, orderedInsert_congr r s h]

/-- C8: squared Euclidean distance orders any pair of stored vectors exactly
as true Euclidean distance does, so ranking the index entries by squared
distance produces the same sorted sequence as ranking by Euclidean
distance. -/
theorem sq_euclid_ranking_agrees {σ : Type u} (v u w : List ℚ)
    (store : List (List ℚ × σ)) :
    (sqdist v u ≤ sqdist v w ↔
      Real.sqrt ((sqdist v u : ℚ) : ℝ) ≤ Real.sqrt ((sqdist v w : ℚ) : ℝ)) ∧
    rankEntries v store =
      @List.insertionSort _ (rankLeEuclid v)
        (fun p q => Classical.dec _) store.enum := by
  constructor
  · constructor
    · intro hle
      exact Real.sqrt_le_sqrt (by exact_mod_cast hle)
    · intro hle
      have hw : (0 : ℝ) ≤ ((sqdist v w : ℚ) : ℝ) := by
        exact_mod_cast sqdist_nonneg v w
      have : ((sqdist v u : ℚ) : ℝ) ≤ ((sqdist v w : ℚ) : ℝ) :=
        (Real.sqrt_le_sqrt_iff hw).mp hle
      exact_mod_cast this
  · unfold rankEntries
    exact @insertionSort_congr _ (rankLe v) (rankLeEuclid v) _
      (fun p q => Classical.dec _) (rankLe_iff_euclid v) store.enum

/-- Witness for `sq_euclid_ranking_agrees` at concrete vectors and a concrete
store. -/
theorem sq_euclid_ranking_agrees_witness :
    Real.sqrt ((sqdist [0] [1] : ℚ) : ℝ) ≤ Real.sqrt ((sqdist [0] [2] : ℚ) : ℝ) :=
  (sq_euclid_ranking_agrees [0] [1] [2] ([] : List (List ℚ × Nat))).1.mp
    (by norm_num [sqdist])

/-! ## Vector index query ranking -/

theorem snd_mem_of_mem_enumFrom {β : Type u} :
    ∀ (n : Nat) (l : List β) (p : Nat × β), p ∈ List.enumFrom n l → p.2 ∈ l := by
  intro n l
  induction l generalizing n with
  | nil =>
    intro p hp
    simp [List.enumFrom] at hp
  | cons a l ih =>
    intro p hp
    simp only [List.enumFrom, List.mem_cons] at hp
    rcases hp with rfl | hp
    · exact List.mem_cons_self a l
    · exact List.mem_cons_of_mem a (ih (n + 1) p hp)

theorem rankLe_total {σ : Type u} (v : List ℚ) (p q : Nat × (List ℚ × σ)) :
    rankLe v p q ∨ rankLe v q p := by
  unfold rankLe
  rcases lt_trichotomy (sqdist v p.2.1) (sqdist v q.2.1) with h | h | h
  · exact Or.inl (Or.inl h)
  · rcases Nat.le_total p.1 q.1 with hle | hle
    · exact Or.inl (Or.inr ⟨h, hle⟩)
    · exact Or.inr (Or.inr ⟨h.symm, hle⟩)
  · exact Or.inr (Or.inl h)

theorem rankLe_trans {σ : Type u} (v : List ℚ) (a b c : Nat × (List ℚ × σ))
    (hab : rankLe v a b) (hbc : rankLe v b c) : rankLe v a c := by
  unfold rankLe at hab hbc ⊢
  rcases hab with h1 | ⟨e1, i1⟩ <;> rcases hbc with h2 | ⟨e2, i2⟩
  · exact Or.inl (lt_trans h1 h2)
  · exact Or.inl (e2 ▸ h1)
  · exact Or.inl (e1 ▸ h2)
  · exact Or.inr ⟨e1.trans e2, le_trans i1 i2⟩

/-- C1: on an index whose stored vectors all have one dimension, the
nearest-neighbour query returns only previously inserted entries; the
returned sequence is ordered by ascending distance to the query vector (so
distances are non-decreasing), with exact ties broken by ascending insertion
index; and the result holds `min k n` entries, hence fewer than `k` whenever
the index holds fewer than `k` vectors. -/
theorem query_ranking {σ : Type u} (v : List ℚ) (k d : Nat)
    (store : List (List ℚ × σ)) (hdim : ∀ p ∈ store, p.1.length = d) :
    (∀ p ∈ (rankEntries v store).take k, p.2 ∈ store) ∧
    (∀ s ∈ similarity_search v k store, ∃ p ∈ store, p.2 = s) ∧
    List.Pairwise
      (fun p q => sqdist v p.2.1 < sqdist v q.2.1 ∨
        (sqdist v p.2.1 = sqdist v q.2.1 ∧ p.1 < q.1))
      ((rankEntries v store).take k) ∧
    (similarity_search v k store).length = min k store.length ∧
    (store.length < k → (similarity_search v k store).length < k) := by
  letI : IsTotal (Nat × (List ℚ × σ)) (rankLe v) := ⟨rankLe_total v⟩
  letI : IsTrans (Nat × (List ℚ × σ)) (rankLe v) :=
    ⟨fun a b c => rankLe_trans v a b c⟩
  have hperm : List.Perm (rankEntries v store) store.enum :=
    List.perm_insertionSort (rankLe v) store.enum
  have hmem : ∀ p ∈ (rankEntries v store).take k, p.2 ∈ store := by
    intro p hp
    have hp2 : p ∈ rankEntries v store := List.mem_of_mem_take hp
    have hp3 : p ∈ store.enum := hperm.mem_iff.mp hp2
    exact snd_mem_of_mem_enumFrom 0 store p hp3
  have hsorted : List.Pairwise (rankLe v) (rankEntries v store) :=
    List.sorted_insertionSort (rankLe v) store.enum
  have hne : List.Pairwise (fun p q : Nat × (List ℚ × σ) => p.1 ≠ q.1)
      (rankEntries v store) := by
    have h1 : ((store.enum).map Prod.fst).Nodup := by
      have he : (store.enum).map Prod.fst = List.range' 0 store.length :=
        List.enumFrom_map_fst 0 store
      rw [he]
      exact List.nodup_range' 0 store.length
    have h2 : ((rankEntries v store).map Prod.fst).Nodup :=
      ((hperm.map Prod.fst).nodup_iff).mpr h1
    exact List.pairwise_map.mp h2
  have hstrict : List.Pairwise
      (fun p q : Nat × (List ℚ × σ) => sqdist v p.2.1 < sqdist v q.2.1 ∨
        (sqdist v p.2.1 = sqdist v q.2.1 ∧ p.1 < q.1))
      ((rankEntries v store).take k) := by
    have hcomb := (hsorted.and hne).sublist (List.take_sublist k _)
    refine hcomb.imp ?_
    intro p q hpq
    rcases hpq.1 with hlt | ⟨heq, hle⟩
    · exact Or.inl hlt
    · exact Or.inr ⟨heq, lt_of_le_of_ne hle hpq.2⟩
  have hlen : (similarity_search v k store).length = min k store.length := by
    unfold similarity_search
    rw [List.length_map, List.length_take, hperm.length_eq, List.enum_length]
  refine ⟨hmem, ?_, hstrict, hlen, fun hlt => by rw [hlen]; omega⟩
  intro s hs
  unfold similarity_search at hs
  rcases List.mem_map.mp hs with ⟨p, hp, rfl⟩
  exact ⟨p.2, hmem p hp, rfl⟩

/-- Witness for `query_ranking` at the spec's three-vector scenario. -/
theorem query_ranking_witness :
    (similarity_search [0, 0] 2
        [([0, 0], 0), ([1, 0], 1), ([0, 1], 2)]).length =
      min 2 ([([0, 0], (0 : Nat)), ([1, 0], 1), ([0, 1], 2)] :
        List (List ℚ × Nat)).length :=
  (query_ranking [0, 0] 2 2 [([0, 0], 0), ([1, 0], 1), ([0, 1], 2)]
    (by decide)).2.2.2.1

/-! ## Zero-evidence fallback in the agent layer -/

/-- C9: with an empty evidence list, `analyze_greenwashing` returns the fixed
fallback JSON (is_greenwashing false plus the fixed explanation) and makes no
model call; with non-empty evidence it makes exactly one model call, forwards
the cleaned answer, and propagates a model failure unchanged, converting no
error into an in-band answer. -/
theorem analyze_greenwashing_fallback
    (llm : List Char → Except (List Char) (List Char))
    (stmt : List Char) (evidence laws : List (List Char)) :
    (evidence = [] →
      analyze_greenwashing llm stmt evidence laws =
        (.ok fallbackGreenwashJson, 0)) ∧
    (evidence ≠ [] →
      (∀ e, llm (greenwashPrompt stmt evidence) = .error e →
        analyze_greenwashing llm stmt evidence laws = (.error e, 1)) ∧
      (∀ a, llm (greenwashPrompt stmt evidence) = .ok a →
        analyze_greenwashing llm stmt evidence laws =
          (.ok (clean_groq_output a), 1))) := by
  refine ⟨fun h => ?_, fun h => ⟨fun e he => ?_, fun a ha => ?_⟩⟩
  · unfold analyze_greenwashing
    rw [if_pos h]
  · unfold analyze_greenwashing
    rw [if_neg h, he]
    rfl
  · unfold analyze_greenwashing
    rw [if_neg h, ha]
    rfl

/-- Witness for `analyze_greenwashing_fallback` with a failing model and an
empty evidence list. -/
theorem analyze_greenwashing_fallback_witness :
    analyze_greenwashing (fun _ => .error "boom".toList)
        "Our operations are 100% carbon neutral".toList [] [] =
      (.ok fallbackGreenwashJson, 0) :=
  (analyze_greenwashing_fallback (fun _ => .error "boom".toList)
    "Our operations are 100% carbon neutral".toList [] []).1 rfl

/-! ## Soundness and completeness of the backtracking matcher -/

theorem take_all_of_le_takeWhile {β : Type u} (p : β → Bool) (l : List β)
    (j : Nat) (hj : j ≤ (l.takeWhile p).length) :
    ∀ c ∈ l.take j, p c = true := by
  intro c hc
  have h1 : l.take j = (l.takeWhile p).take j := by
    conv_lhs => rw [← List.takeWhile_append_dropWhile (p := p) (l := l)]
    exact List.take_eq_left_iff.mpr (Or.inr hj)
  rw [h1] at hc
  exact List.mem_takeWhile_imp (List.mem_of_mem_take hc)

theorem takeWhile_append_ge {β : Type u} (p : β → Bool) (w t : List β)
    (hw : ∀ c ∈ w, p c = true) :
    w.length ≤ ((w ++ t).takeWhile p).length := by
  induction w with
  | nil => simp
  | cons a w ih =>
    have ha : p a = true := hw a (List.mem_cons_self a w)
    rw [List.cons_append, List.takeWhile_cons_of_pos ha]
    simp only [List.length_cons, Nat.succ_le_succ_iff]
    exact ih (fun c hc => hw c (List.mem_cons_of_mem a hc))

theorem reMatch_sound :
    ∀ (es : List RElem) (inp : List Char) (gs : List (List Char)),
      reMatch es inp = some gs → RMatches es inp gs := by
  intro es
  induction es with
  | nil =>
    intro inp gs h
    simp only [reMatch, Option.some.injEq] at h
    rw [← h]
    exact RMatches.nil inp
  | cons e rest ih =>
    intro inp gs h
    cases e with
    | lit s =>
      simp only [reMatch] at h
      by_cases hp : s.isPrefixOf inp
      · rw [if_pos hp] at h
        have hpre : s <+: inp := List.isPrefixOf_iff_prefix.mp hp
        rcases hpre with ⟨t, rfl⟩
        rw [List.drop_left] at h
        exact RMatches.lit s rest t gs (ih t gs h)
      · rw [if_neg hp] at h
        cases h
    | wsStar =>
      simp only [reMatch] at h
      rcases List.exists_of_findSome?_eq_some h with ⟨j, hj, hfj⟩
      have hjle : j ≤ (inp.takeWhile pyWsB).length := by
        have h1 := List.mem_range.mp (List.mem_reverse.mp hj)
        omega
      have hws := take_all_of_le_takeWhile pyWsB inp j hjle
      have hm := ih (inp.drop j) gs hfj
      have hfull := RMatches.ws (inp.take j) rest (inp.drop j) gs hws hm
      rwa [List.take_append_drop] at hfull
    | lazyCap =>
      simp only [reMatch] at h
      rcases List.exists_of_findSome?_eq_some h with ⟨j, hj, hfj⟩
      rcases Option.map_eq_some'.mp hfj with ⟨gs2, hgs2, hcons⟩
      rw [← hcons]
      have hm := ih (inp.drop j) gs2 hgs2
      have hfull := RMatches.lazy (inp.take j) rest (inp.drop j) gs2 hm
      rwa [List.take_append_drop] at hfull
    | greedyCap =>
      simp only [reMatch] at h
      rcases List.exists_of_findSome?_eq_some h with ⟨j, hj, hfj⟩
      rcases Option.map_eq_some'.mp hfj with ⟨gs2, hgs2, hcons⟩
      rw [← hcons]
      have hm := ih (inp.drop j) gs2 hgs2
      have hfull := RMatches.greedy (inp.take j) rest (inp.drop j) gs2 hm
      rwa [List.take_append_drop] at hfull

theorem reMatch_complete {es : List RElem} {inp : List Char}
    {gs : List (List Char)} (h : RMatches es inp gs) :
    (reMatch es inp).isSome := by
  induction h with
  | nil inp => simp [reMatch]
  | lit s rest inp gs hm ih =>
    simp only [reMatch]
    have hp : s.isPrefixOf (s ++ inp) = true :=
      List.isPrefixOf_iff_prefix.mpr ⟨inp, rfl⟩
    rw [if_pos hp, List.drop_left]
    exact ih
  | ws w rest inp gs hws hm ih =>
    simp only [reMatch]
    by_contra hnone
    rw [Option.not_isSome_iff_eq_none, List.findSome?_eq_none_iff] at hnone
    have hjmem : w.length ∈
        (List.range (((w ++ inp).takeWhile pyWsB).length + 1)).reverse := by
      rw [List.mem_reverse, List.mem_range]
      have := takeWhile_append_ge pyWsB w inp hws
      omega
    have hz := hnone w.length hjmem
    rw [List.drop_left] at hz
    rw [hz] at ih
    cases ih
  | lazy t rest inp gs hm ih =>
    simp only [reMatch]
    by_contra hnone
    rw [Option.not_isSome_iff_eq_none, List.findSome?_eq_none_iff] at hnone
    have hjmem : t.length ∈ List.range ((t ++ inp).length + 1) := by
      rw [List.mem_range, List.length_append]
      omega
    have hz := hnone t.length hjmem
    rw [List.drop_left, Option.map_eq_none'] at hz
    rw [hz] at ih
    cases ih
  | greedy t rest inp gs hm ih =>
    simp only [reMatch]
    by_contra hnone
    rw [Option.not_isSome_iff_eq_none, List.findSome?_eq_none_iff] at hnone
    have hjmem : t.length ∈ (List.range ((t ++ inp).length + 1)).reverse := by
      rw [List.mem_reverse, List.mem_range, List.length_append]
      omega
    have hz := hnone t.length hjmem
    rw [List.drop_left, Option.map_eq_none'] at hz
    rw [hz] at ih
    cases ih

theorem drop_min_length (l : List Char) (i : Nat) :
    l.drop (min i l.length) = l.drop i := by
  rcases Nat.le_total i l.length with h | h
  · rw [Nat.min_eq_left h]
  · rw [Nat.min_eq_right h, List.drop_length, List.drop_eq_nil_of_le h]

theorem reSearch_isSome (pat : List RElem) (input : List Char)
    (h : ∃ i gs, RMatches pat (input.drop i) gs) :
    (reSearch pat input).isSome := by
  rcases h with ⟨i, gs, hm⟩
  unfold reSearch
  by_contra hnone
  rw [Option.not_isSome_iff_eq_none, List.findSome?_eq_none_iff] at hnone
  have hjmem : min i input.length ∈ List.range (input.length + 1) := by
    rw [List.mem_range]
    omega
  have hz := hnone (min i input.length) hjmem
  rw [drop_min_length] at hz
  have := reMatch_complete hm
  rw [hz] at this
  cases this

theorem reSearch_some_rmatches (pat : List RElem) (input : List Char)
    (gs : List (List Char)) (h : reSearch pat input = some gs) :
    ∃ i, RMatches pat (input.drop i) gs := by
  unfold reSearch at h
  rcases List.exists_of_findSome?_eq_some h with ⟨i, _, hfi⟩
  exact ⟨i, reMatch_sound pat (input.drop i) gs hfi⟩

theorem rmatches_nil_iff {inp : List Char} {gs : List (List Char)} :
    RMatches [] inp gs ↔ gs = [] := by
  constructor
  · intro h
    cases h
    rfl
  · rintro rfl
    exact RMatches.nil inp

theorem rmatches_lit_iff {s : List Char} {rest : List RElem} {inp : List Char}
    {gs : List (List Char)} :
    RMatches (.lit s :: rest) inp gs ↔
      ∃ inp2, inp = s ++ inp2 ∧ RMatches rest inp2 gs := by
  constructor
  · intro h
    cases h with
    | lit _ _ inp2 _ h2 => exact ⟨inp2, rfl, h2⟩
  · rintro ⟨inp2, rfl, h2⟩
    exact RMatches.lit s rest inp2 gs h2

theorem rmatches_ws_iff {rest : List RElem} {inp : List Char}
    {gs : List (List Char)} :
    RMatches (.wsStar :: rest) inp gs ↔
      ∃ w inp2, inp = w ++ inp2 ∧ (∀ c ∈ w, pyWsB c = true) ∧
        RMatches rest inp2 gs := by
  constructor
  · intro h
    cases h with
    | ws w _ inp2 _ hw h2 => exact ⟨w, inp2, rfl, hw, h2⟩
  · rintro ⟨w, inp2, rfl, hw, h2⟩
    exact RMatches.ws w rest inp2 gs hw h2

theorem rmatches_lazy_iff {rest : List RElem} {inp : List Char}
    {gs : List (List Char)} :
    RMatches (.lazyCap :: rest) inp gs ↔
      ∃ t inp2 gs2, inp = t ++ inp2 ∧ gs = t :: gs2 ∧
        RMatches rest inp2 gs2 := by
  constructor
  · intro h
    cases h with
    | lazy t _ inp2 gs2 h2 => exact ⟨t, inp2, gs2, rfl, rfl, h2⟩
  · rintro ⟨t, inp2, gs2, rfl, rfl, h2⟩
    exact RMatches.lazy t rest inp2 gs2 h2

theorem rmatches_greedy_iff {rest : List RElem} {inp : List Char}
    {gs : List (List Char)} :
    RMatches (.greedyCap :: rest) inp gs ↔
      ∃ t inp2 gs2, inp = t ++ inp2 ∧ gs = t :: gs2 ∧
        RMatches rest inp2 gs2 := by
  constructor
  · intro h
    cases h with
    | greedy t _ inp2 gs2 h2 => exact ⟨t, inp2, gs2, rfl, rfl, h2⟩
  · rintro ⟨t, inp2, gs2, rfl, rfl, h2⟩
    exact RMatches.greedy t rest inp2 gs2 h2

theorem rmatches_caps_length {es : List RElem} {inp : List Char}
    {gs : List (List Char)} (h : RMatches es inp gs) :
    gs.length = countCaps es := by
  induction h with
  | nil inp => rfl
  | lit s rest inp gs hm ih => simpa [countCaps] using ih
  | ws w rest inp gs hw hm ih => simpa [countCaps] using ih
  | lazy t rest inp gs hm ih => simpa [countCaps] using ih
  | greedy t rest inp gs hm ih => simpa [countCaps] using ih

theorem headings_to_contains (input : List Char) (h : HeadingsInOrder input) :
    ContainsSixSections input := by
  obtain ⟨g0, w1, s1, w2, s2, w3, s3, w4, s4, w5, s5, w6, s6,
    hw1, hw2, hw3, hw4, hw5, hw6, heq⟩ := h
  refine ⟨g0.length, [s1, s2, s3, s4, s5, s6], ?_⟩
  have hdrop : input.drop g0.length =
      "1.".toList ++ (w1 ++ ("Retrieved Evidence".toList ++ (s1 ++
      ("2.".toList ++ (w2 ++ ("Conclusion".toList ++ (s2 ++
      ("3.".toList ++ (w3 ++ ("Justification".toList ++ (s3 ++
      ("4.".toList ++ (w4 ++ ("Rewritten Statement".toList ++ (s4 ++
      ("5.".toList ++ (w5 ++ ("Suggestions for Improvement".toList ++ (s5 ++
      ("6.".toList ++ (w6 ++ ("Greenwashing Category".toList ++
        s6)))))))))))))))))))))) := by
    rw [heq]
    simp only [List.append_assoc]
    rw [List.drop_left]
  rw [hdrop]
  simp only [thePattern]
  refine RMatches.lit _ _ _ _ ?_
  refine RMatches.ws w1 _ _ _ hw1 ?_
  refine RMatches.lit _ _ _ _ ?_
  refine RMatches.ws [] _ _ _ (by simp) ?_
  refine RMatches.lazy _ _ _ _ ?_
  refine RMatches.ws [] _ _ _ (by simp) ?_
  refine RMatches.lit _ _ _ _ ?_
  refine RMatches.ws w2 _ _ _ hw2 ?_
  refine RMatches.lit _ _ _ _ ?_
  refine RMatches.ws [] _ _ _ (by simp) ?_
  refine RMatches.lazy _ _ _ _ ?_
  refine RMatches.ws [] _ _ _ (by simp) ?_
  refine RMatches.lit _ _ _ _ ?_
  refine RMatches.ws w3 _ _ _ hw3 ?_
  refine RMatches.lit _ _ _ _ ?_
  refine RMatches.ws [] _ _ _ (by simp) ?_
  refine RMatches.lazy _ _ _ _ ?_
  refine RMatches.ws [] _ _ _ (by simp) ?_
  refine RMatches.lit _ _ _ _ ?_
  refine RMatches.ws w4 _ _ _ hw4 ?_
  refine RMatches.lit _ _ _ _ ?_
  refine RMatches.ws [] _ _ _ (by simp) ?_
  refine RMatches.lazy _ _ _ _ ?_
  refine RMatches.ws [] _ _ _ (by simp) ?_
  refine RMatches.lit _ _ _ _ ?_
  refine RMatches.ws w5 _ _ _ hw5 ?_
  refine RMatches.lit _ _ _ _ ?_
  refine RMatches.ws [] _ _ _ (by simp) ?_
  refine RMatches.lazy _ _ _ _ ?_
  refine RMatches.ws [] _ _ _ (by simp) ?_
  refine RMatches.lit _ _ _ _ ?_
  refine RMatches.ws w6 _ _ _ hw6 ?_
  refine RMatches.lit _ _ _ _ ?_
  refine RMatches.ws [] _ _ _ (by simp) ?_
  simpa using RMatches.greedy s6 [] [] [] (RMatches.nil [])

theorem contains_to_headings (input : List Char)
    (h : ContainsSixSections input) : HeadingsInOrder input := by
  obtain ⟨i, gs, hm⟩ := h
  simp only [thePattern] at hm
  simp only [rmatches_lit_iff, rmatches_ws_iff, rmatches_lazy_iff,
    rmatches_greedy_iff, rmatches_nil_iff] at hm
  obtain ⟨p1, hp1, w1, p2, hp2, hw1, p3, hp3,
    a1, p4, hp4, ha1, t1, p5, G1, hp5, hg1, b1, p6, hp6, hb1,
    p7, hp7, w2, p8, hp8, hw2, p9, hp9,
    a2, p10, hp10, ha2, t2, p11, G2, hp11, hg2, b2, p12, hp12, hb2,
    p13, hp13, w3, p14, hp14, hw3, p15, hp15,
    a3, p16, hp16, ha3, t3, p17, G3, hp17, hg3, b3, p18, hp18, hb3,
    p19, hp19, w4, p20, hp20, hw4, p21, hp21,
    a4, p22, hp22, ha4, t4, p23, G4, hp23, hg4, b4, p24, hp24, hb4,
    p25, hp25, w5, p26, hp26, hw5, p27, hp27,
    a5, p28, hp28, ha5, t5, p29, G5, hp29, hg5, b5, p30, hp30, hb5,
    p31, hp31, w6, p32, hp32, hw6, p33, hp33,
    a6, p34, hp34, ha6, t6, p35, G6, hp35, hg6, hnil⟩ := hm
  refine ⟨input.take i, w1, a1 ++ t1 ++ b1, w2, a2 ++ t2 ++ b2,
    w3, a3 ++ t3 ++ b3, w4, a4 ++ t4 ++ b4, w5, a5 ++ t5 ++ b5,
    w6, a6 ++ t6 ++ p35, hw1, hw2, hw3, hw4, hw5, hw6, ?_⟩
  conv_lhs => rw [← List.take_append_drop i input]
  rw [hp1, hp2, hp3, hp4, hp5, hp6, hp7, hp8, hp9, hp10, hp11, hp12, hp13,
    hp14, hp15, hp16, hp17, hp18, hp19, hp20, hp21, hp22, hp23, hp24, hp25,
    hp26, hp27, hp28, hp29, hp30, hp31, hp32, hp33, hp34, hp35]
  simp only [List.append_assoc]

/-- C10: `parse_agent_output` succeeds exactly when the input contains the six
numbered section headings in order: on success it returns the six-field
record whose every field is the whitespace-stripped text of the corresponding
captured section of a match of the pattern, and otherwise — and in no other
case — it fails with the fixed `ValueError` message. -/
theorem parse_agent_output_spec (input : List Char) :
    (HeadingsInOrder input →
      ∃ gs, parse_agent_output input = .ok (buildAgentOutput gs) ∧
        gs.length = 6 ∧ ∃ i, RMatches thePattern (input.drop i) gs) ∧
    (¬ HeadingsInOrder input →
      parse_agent_output input = .error parseErrMsg) ∧
    (∀ r, parse_agent_output input = .ok r →
      ∃ i gs, RMatches thePattern (input.drop i) gs ∧
        r = buildAgentOutput gs ∧ gs.length = 6) := by
  refine ⟨fun h => ?_, fun h => ?_, fun r hr => ?_⟩
  · have hcont := headings_to_contains input h
    have hsome := reSearch_isSome thePattern input hcont
    rcases Option.isSome_iff_exists.mp hsome with ⟨gs, hgs⟩
    refine ⟨gs, ?_, ?_, ?_⟩
    · unfold parse_agent_output
      rw [hgs]
    · rcases reSearch_some_rmatches thePattern input gs hgs with ⟨i, hi⟩
      rw [rmatches_caps_length hi]
      rfl
    · exact reSearch_some_rmatches thePattern input gs hgs
  · cases hsrch : reSearch thePattern input with
    | none =>
      unfold parse_agent_output
      rw [hsrch]
    | some gs =>
      rcases reSearch_some_rmatches thePattern input gs hsrch with ⟨i, hi⟩
      exact absurd (contains_to_headings input ⟨i, gs, hi⟩) h
  · cases hsrch : reSearch thePattern input with
    | none =>
      unfold parse_agent_output at hr
      rw [hsrch] at hr
      cases hr
    | some gs =>
      unfold parse_agent_output at hr
      rw [hsrch] at hr
      cases hr
      rcases reSearch_some_rmatches thePattern input gs hsrch with ⟨i, hi⟩
      exact ⟨i, gs, hi, rfl, by rw [rmatches_caps_length hi]; rfl⟩

/-- Witness for `parse_agent_output_spec` at a concrete six-section
response. -/
theorem parse_agent_output_spec_witness :
    ∃ gs,
      parse_agent_output
          "1. Retrieved Evidence A 2. Conclusion B 3. Justification C 4. Rewritten Statement D 5. Suggestions for Improvement E 6. Greenwashing Category F".toList =
        .ok (buildAgentOutput gs) ∧
      gs.length = 6 ∧
      ∃ i, RMatches thePattern
        (("1. Retrieved Evidence A 2. Conclusion B 3. Justification C 4. Rewritten Statement D 5. Suggestions for Improvement E 6. Greenwashing Category F".toList).drop i)
        gs :=
  (parse_agent_output_spec
      "1. Retrieved Evidence A 2. Conclusion B 3. Justification C 4. Rewritten Statement D 5. Suggestions for Improvement E 6. Greenwashing Category F".toList).1
    ⟨[], " ".toList, " A ".toList, " ".toList, " B ".toList, " ".toList,
      " C ".toList, " ".toList, " D ".toList, " ".toList, " E ".toList,
      " ".toList, " F".toList, by decide, by decide, by decide, by decide,
      by decide, by decide, by decide⟩
